import Mathlib

/-!
Verification development for the Telegram-to-Supabase movie ingest script
(src/ingest_telegram_to_supabase.py).  The Python functions are shallowly
embedded as executable Lean definitions over lists of characters; machine
integers do not occur in the relevant code, and all fallible paths are
modelled with Option.
-/

set_option maxRecDepth 4000

namespace Ingest

/-! ## Python character classes and basic string operations -/

/-- Characters for which Python reports whitespace: the set used by
str.strip, str.isspace and by the regex class backslash-s under the default
Unicode semantics (the CPython whitespace table). -/
def pyIsSpace (c : Char) : Bool :=
  let n := c.toNat
  (9 ≤ n && n ≤ 13) || (28 ≤ n && n ≤ 31) || n = 32 || n = 133 || n = 160 ||
    n = 5760 || (8192 ≤ n && n ≤ 8202) || n = 8232 || n = 8233 || n = 8239 ||
    n = 8287 || n = 12288

/-- Line-boundary characters of Python str.splitlines (CR LF handled as a
pair separately): LF, VT, FF, CR, FS, GS, RS, NEL, LINE SEPARATOR,
PARAGRAPH SEPARATOR. -/
def isLineBoundary (c : Char) : Bool :=
  let n := c.toNat
  (10 ≤ n && n ≤ 13) || (28 ≤ n && n ≤ 30) || n = 133 || n = 8232 || n = 8233

/-- Python str.strip with no argument: drop leading and trailing whitespace. -/
def pyRStrip (l : List Char) : List Char :=
  (l.reverse.dropWhile pyIsSpace).reverse

def pyStrip (l : List Char) : List Char :=
  pyRStrip (l.dropWhile pyIsSpace)

/-- Worker for Python str.splitlines: acc holds the current line reversed. -/
def splitlinesAux : List Char → List Char → List (List Char)
  | [], acc => if acc.isEmpty then [] else [acc.reverse]
  | '\r' :: '\n' :: cs, acc => acc.reverse :: splitlinesAux cs []
  | c :: cs, acc =>
    if c = '\r' then acc.reverse :: splitlinesAux cs []
    else if isLineBoundary c then acc.reverse :: splitlinesAux cs []
    else splitlinesAux cs (c :: acc)

/-- Python str.splitlines (keepends false). -/
def splitlines (l : List Char) : List (List Char) :=
  splitlinesAux l []

/-- Worker for the regex substitution in parse_movie: the flag records
whether we are inside a whitespace run that has already emitted its
replacement space. -/
def subWSGo : Bool → List Char → List Char
  | _, [] => []
  | inRun, c :: cs =>
    if pyIsSpace c then
      if inRun then subWSGo true cs else ' ' :: subWSGo true cs
    else c :: subWSGo false cs

/-- re.sub of one or more whitespace characters by a single space: every
maximal whitespace run is replaced by one space. -/
def subWS (l : List Char) : List Char := subWSGo false l

/-- The whitespace compaction applied to every parsed value
(line 93 of the source): re.sub followed by str.strip. -/
def pyNormWS (l : List Char) : List Char := pyStrip (subWS l)

/-! ## The label regexes of FIELD_PATTERNS

Each regex of the source has the anchored shape
Label colon whitespace-star capture-group dollar, where the colon class
admits ASCII and full-width colon, matching is case-insensitive and the
group is either dot-plus or non-space-plus.  re.match anchors at the start;
the dollar anchors at the end.  The matchers below consume the line exactly
that way and return the capture group.  Lines handed to them come from
splitlines and therefore contain no newline, so dot-plus accepts any
non-empty remainder without a newline. -/

/-- ASCII case folding: the effect of re.IGNORECASE on the pattern letters
involved (Persian letters and punctuation are caseless). -/
def foldC (c : Char) : Char :=
  if 65 ≤ c.toNat ∧ c.toNat ≤ 90 then Char.ofNat (c.toNat + 32) else c

/-- Consume a literal case-insensitively, returning the remainder. -/
def eatCI : List Char → List Char → Option (List Char)
  | [], cs => some cs
  | _ :: _, [] => none
  | x :: xs, c :: cs => if foldC x = foldC c then eatCI xs cs else none

/-- Consume one colon of the class containing ASCII colon and full-width
colon. -/
def eatColon : List Char → Option (List Char)
  | c :: cs => if c = ':' ∨ c = '：' then some cs else none
  | [] => none

/-- Capture group dot-plus followed by the end anchor, on a string with no
newline: any non-empty remainder. -/
def grpDotPlus (cs : List Char) : Option (List Char) :=
  if cs ≠ [] ∧ '\n' ∉ cs then some cs else none

/-- Capture group non-space-plus followed by the end anchor: a non-empty
remainder with no whitespace at all. -/
def grpNonSpacePlus (cs : List Char) : Option (List Char) :=
  if cs ≠ [] ∧ cs.all (fun c => !pyIsSpace c) then some cs else none

/-- A matcher takes one (already stripped) line and returns the capture
group when the whole regex matches. -/
abbrev Matcher := List Char → Option (List Char)

/-- Colon, whitespace-star, then the capture group: the common tail of all
the label patterns. -/
def tailMatch (grp : List Char → Option (List Char)) (cs : List Char) :
    Option (List Char) :=
  (eatColon cs).bind (fun r => grp (r.dropWhile pyIsSpace))

/-- A pattern of shape Label colon whitespace-star group dollar. -/
def labeled (lab : String) (grp : List Char → Option (List Char)) : Matcher :=
  fun ln => (eatCI lab.data ln).bind (tailMatch grp)

/-- A pattern whose label has an optional (greedy, backtracking) suffix,
as in the Product, Stars and Release patterns. -/
def labeledOpt (lab suffixPart : String) : Matcher :=
  fun ln =>
    (eatCI lab.data ln).bind fun r =>
      match eatCI suffixPart.data r with
      | some r2 => tailMatch grpDotPlus r2 <|> tailMatch grpDotPlus r
      | none => tailMatch grpDotPlus r

def matchTitleEn : Matcher := labeled "Title" grpDotPlus
def matchTitleFa : Matcher := labeled "عنوان" grpDotPlus
def matchLinkEn : Matcher := labeled "Link" grpNonSpacePlus
def matchLinkFa : Matcher := labeled "لینک" grpNonSpacePlus
def matchSynopsisEn : Matcher := labeled "Synopsis" grpDotPlus
def matchSynopsisFa : Matcher := labeled "خلاصه" grpDotPlus
def matchDirectorEn : Matcher := labeled "Director" grpDotPlus
def matchDirectorFa : Matcher := labeled "کارگردان" grpDotPlus
def matchProductEn : Matcher := labeledOpt "Product" "ion"
def matchProductFa : Matcher := labeled "محصول" grpDotPlus
def matchStarsEn : Matcher := labeledOpt "Star" "s"
def matchStarsFa : Matcher := labeled "بازیگران" grpDotPlus
def matchImdbEn : Matcher := labeled "IMDB" grpDotPlus
/-- The Persian IMDB pattern: the Persian word, whitespace-star, the ASCII
letters IMDB, then the common tail. -/
def matchImdbFa : Matcher :=
  fun ln =>
    (eatCI "امتیاز".data ln).bind fun r =>
      (eatCI "IMDB".data (r.dropWhile pyIsSpace)).bind (tailMatch grpDotPlus)
def matchReleaseEn : Matcher := labeledOpt "Release" " Info"
def matchReleaseFa : Matcher := labeledOpt "سال" " انتشار"
def matchGenreEn : Matcher := labeled "Genre" grpDotPlus
def matchGenreFa : Matcher := labeled "ژانر" grpDotPlus

/-- The ordered field-pattern table of the source, insertion order of the
Python dict preserved. -/
def FIELD_PATTERNS : List (String × List Matcher) :=
  [("title", [matchTitleEn, matchTitleFa]),
   ("link", [matchLinkEn, matchLinkFa]),
   ("synopsis", [matchSynopsisEn, matchSynopsisFa]),
   ("director", [matchDirectorEn, matchDirectorFa]),
   ("product", [matchProductEn, matchProductFa]),
   ("stars", [matchStarsEn, matchStarsFa]),
   ("imdb", [matchImdbEn, matchImdbFa]),
   ("release_info", [matchReleaseEn, matchReleaseFa]),
   ("genre", [matchGenreEn, matchGenreFa])]

/-! ## Python dict as an insertion-ordered association list -/

def hasKey {α : Type} (f : List (String × α)) (k : String) : Bool :=
  f.any (fun kv => kv.1 == k)

/-- Python dict assignment: update the existing entry in place, else append. -/
def dictSet {α : Type} (f : List (String × α)) (k : String) (v : α) :
    List (String × α) :=
  if hasKey f k then f.map (fun kv => if kv.1 == k then (k, v) else kv)
  else f ++ [(k, v)]

def dictGet? {α : Type} (f : List (String × α)) (k : String) : Option α :=
  (f.find? (fun kv => kv.1 == k)).map Prod.snd

/-! ## parse_movie -/

/-- First matching pattern of a field wins (the inner break of line 85). -/
def tryPats : List Matcher → List Char → Option (List Char)
  | [], _ => none
  | p :: ps, ln =>
    match p ln with
    | some g => some g
    | none => tryPats ps ln

/-- The per-line scan over the field table (lines 80 to 87): set the field
from the first matching pattern, then stop at the first key that is present
in the dict, whether it was just matched or set by an earlier line. -/
def goScan : List (String × List Matcher) → List (String × List Char) →
    List Char → List (String × List Char)
  | [], f, _ => f
  | (k, pats) :: rest, f, ln =>
    let f' := match tryPats pats ln with
      | some g => dictSet f k (pyStrip g)
      | none => f
    if hasKey f' k then f' else goScan rest f' ln

def scanLine (f : List (String × List Char)) (ln : List Char) :
    List (String × List Char) :=
  goScan FIELD_PATTERNS f ln

/-- Line 78: split, strip, and drop the empty lines. -/
def parsedLines (text : String) : List (List Char) :=
  ((splitlines text.data).map pyStrip).filter (fun l => !l.isEmpty)

def scanFields (lines : List (List Char)) : List (String × List Char) :=
  lines.foldl scanLine []

/-- The dict built by lines 77 to 89, before whitespace compaction. -/
def rawFields (text : String) : List (String × List Char) :=
  let lines := parsedLines text
  let f := scanFields lines
  if !hasKey f "title" && !lines.isEmpty then
    dictSet f "title" ((lines.headD []).take 200)
  else f

/-- parse_movie of the source: the whole of lines 75 to 94.  All values are
strings, so the isinstance guard of line 92 always passes. -/
def parse_movie (text : String) : List (String × String) :=
  (rawFields text).map (fun kv => (kv.1, String.mk (pyNormWS kv.2)))

/-! ## The Movie dataclass, keyword construction and the upsert payload -/

structure Movie where
  title : Option String := none
  link : Option String := none
  synopsis : Option String := none
  director : Option String := none
  product : Option String := none
  stars : Option String := none
  imdb : Option String := none
  release_info : Option String := none
  genre : Option String := none
  cover_url : Option String := none
  tg_message_id : Option Int := none
  tg_date : Option String := none
deriving DecidableEq

/-- Set one keyword argument of the Movie constructor.  Unknown names make
keyword expansion fail (a TypeError in Python), modelled as none.  The
tg_message_id parameter is integer-typed and the parser never produces that
key (proved below), so it is not settable from a parsed string here. -/
def movieSetField? (m : Movie) (k : String) (v : String) : Option Movie :=
  if k = "title" then some { m with title := some v }
  else if k = "link" then some { m with link := some v }
  else if k = "synopsis" then some { m with synopsis := some v }
  else if k = "director" then some { m with director := some v }
  else if k = "product" then some { m with product := some v }
  else if k = "stars" then some { m with stars := some v }
  else if k = "imdb" then some { m with imdb := some v }
  else if k = "release_info" then some { m with release_info := some v }
  else if k = "genre" then some { m with genre := some v }
  else if k = "cover_url" then some { m with cover_url := some v }
  else if k = "tg_date" then some { m with tg_date := some v }
  else none

/-- Movie applied to the parsed dict by keyword expansion (line 159). -/
def movieOfFields (l : List (String × String)) : Option Movie :=
  l.foldlM (fun m kv => movieSetField? m kv.1 kv.2) ({} : Movie)

/-- The attribute names parse_movie may produce. -/
def movieAttrNames : List String :=
  ["title", "link", "synopsis", "director", "product", "stars", "imdb",
   "release_info", "genre"]

/-- A JSON-ish payload value: the record fields are strings except the
integer message id. -/
inductive PyVal where
  | s : String → PyVal
  | i : Int → PyVal
deriving DecidableEq

def optS (k : String) (v : Option String) : List (String × PyVal) :=
  match v with
  | some x => [(k, PyVal.s x)]
  | none => []

def optI (k : String) (v : Option Int) : List (String × PyVal) :=
  match v with
  | some x => [(k, PyVal.i x)]
  | none => []

/-- asdict of the Movie with the None values dropped (line 107), in
dataclass field order. -/
def moviePayloadBase (m : Movie) : List (String × PyVal) :=
  optS "title" m.title ++ optS "link" m.link ++ optS "synopsis" m.synopsis ++
    optS "director" m.director ++ optS "product" m.product ++
    optS "stars" m.stars ++ optS "imdb" m.imdb ++
    optS "release_info" m.release_info ++ optS "genre" m.genre ++
    optS "cover_url" m.cover_url ++ optI "tg_message_id" m.tg_message_id ++
    optS "tg_date" m.tg_date

def rowGet? (r : List (String × PyVal)) (k : String) : Option PyVal :=
  dictGet? r k

/-- Lines 107 to 110: the payload, with setdefault of the owner id when the
RLS_USER_UID environment value is configured. -/
def upsertPayload (rls : Option String) (m : Movie) : List (String × PyVal) :=
  let p := moviePayloadBase m
  match rls with
  | some uid => if (rowGet? p "user_id").isNone then p ++ [("user_id", PyVal.s uid)] else p
  | none => p

/-- The call issued at line 113: table, payload, and the conflict key. -/
structure UpsertCall where
  table : String
  payload : List (String × PyVal)
  on_conflict : String
deriving DecidableEq

def upsert_movie_call (rls : Option String) (m : Movie) : UpsertCall :=
  { table := "movies", payload := upsertPayload rls m,
    on_conflict := "tg_message_id" }

/-- Line 114 and 115: when the response carries an error indicator it is
printed; the function then returns normally either way. -/
def upsert_movie_log (respError : Option String) : List String :=
  match respError with
  | some e => ["Supabase upsert error: " ++ e]
  | none => []

/-! ## The sync driver -/

/-- One channel message as the loop body sees it: the date is already
normalized to naive UTC (lines 148 to 151, an external concern), in
seconds. -/
structure TgMessage where
  id : Int
  message : Option String
  dateUtc : Int
  hasPhotoMedia : Bool

/-- The per-message body of the sync loop, lines 152 to 169.  External
effects are parameters: iso renders a timestamp (datetime.isoformat),
coverResult is the outcome of the download-then-upload pipeline when the
message carries a photo (none when the download or the upload yielded
nothing).  The result is the single upsert call made for the message, or
none when the message is skipped. -/
def syncStep (rls : Option String) (iso : Int → String) (sinceDt : Int)
    (coverResult : Option String) (msg : TgMessage) : Option UpsertCall :=
  if msg.dateUtc < sinceDt then none
  else
    match msg.message with
    | none => none
    | some body =>
      if (pyStrip body.data).isEmpty then none
      else
        match movieOfFields (parse_movie body) with
        | none => none
        | some mv =>
          let mv := { mv with tg_message_id := some msg.id,
                              tg_date := some (iso msg.dateUtc) }
          let mv := if msg.hasPhotoMedia then { mv with cover_url := coverResult }
                    else mv
          some (upsert_movie_call rls mv)

/-- One message together with the outcomes of its external calls. -/
structure MsgEnv where
  msg : TgMessage
  cover : Option String
  respError : Option String

/-- The whole sync loop: the upsert calls made, in order, and the error
lines printed. -/
def syncRun (rls : Option String) (iso : Int → String) (sinceDt : Int) :
    List MsgEnv → List UpsertCall × List String
  | [] => ([], [])
  | e :: rest =>
    let tail := syncRun rls iso sinceDt rest
    match syncStep rls iso sinceDt e.cover e.msg with
    | none => tail
    | some c => (c :: tail.1, upsert_movie_log e.respError ++ tail.2)

/-! ## The stored table (modelled) -/

/-- One stored row, as the set of column values it carries. -/
abbrev Row := List (String × PyVal)

/-- Overwrite the columns of an existing row with the payload columns. -/
def rowUpdate (r p : Row) : Row :=
  p.foldl (fun acc kv => dictSet acc kv.1 kv.2) r

/-- Whether a row conflicts with the payload on the conflict column. -/
def rowConflict (key : String) (p r : Row) : Bool :=
  match rowGet? p key, rowGet? r key with
  | some a, some b => a == b
  | _, _ => false

/-- Modelled from the spec: the database upsert semantics of the external
Supabase table call (not part of src/) — an insert-or-update keyed on the
conflict column: a stored row whose conflict-column value equals the
payload value is updated in place with the payload columns, otherwise the
payload is inserted as a new row. -/
def tableUpsert (t : List Row) (key : String) (p : Row) : List Row :=
  if t.any (rowConflict key p) then
    t.map (fun r => if rowConflict key p r then rowUpdate r p else r)
  else t ++ [p]

/-! ## Lookback-window parsing (lines 124 to 137) -/

def isDigitC (c : Char) : Bool := '0' ≤ c && c ≤ '9'

def natOfDigits (l : List Char) : Nat :=
  l.foldl (fun a c => 10 * a + (c.toNat - 48)) 0

/-- re.match of digits-plus then one of d h m then the end anchor, applied
to the stripped window argument: the digit string must be non-empty and the
unit letter last. -/
def matchWindow (l : List Char) : Option (Nat × Char) :=
  match l.getLast? with
  | none => none
  | some u =>
    if (u = 'd' ∨ u = 'h' ∨ u = 'm') ∧ l.dropLast ≠ [] ∧
        l.dropLast.all isDigitC then
      some (natOfDigits l.dropLast, u)
    else none

/-- The timedelta chosen by lines 125 to 136, in seconds: the matched count
of days, hours or minutes, with thirty days when the argument does not
match. -/
def deltaSeconds (since : String) : Int :=
  match matchWindow (pyStrip since.data) with
  | some (n, u) =>
    if u = 'd' then 86400 * (n : Int)
    else if u = 'h' then 3600 * (n : Int)
    else 60 * (n : Int)
  | none => 86400 * 30

/-- Line 137: the cutoff is the current UTC time minus the window. -/
def since_dt (now : Int) (since : String) : Int :=
  now - deltaSeconds since

/-! ## The whitespace-normalization predicate -/

/-- Every whitespace character is a plain space. -/
def wsOnlySpace (c : Char) : Bool := !pyIsSpace c || (c == ' ')

/-- No two adjacent whitespace characters. -/
def noTwoAdjWS : List Char → Bool
  | a :: b :: rest => (!(pyIsSpace a && pyIsSpace b)) && noTwoAdjWS (b :: rest)
  | _ => true

/-- The first character, when present, is not whitespace. -/
def headNotWS : List Char → Bool
  | [] => true
  | c :: _ => !pyIsSpace c

/-- A string is whitespace-normalized: its whitespace is single plain
spaces only, never adjacent, and neither leading nor trailing. -/
def isNormalizedWS (l : List Char) : Bool :=
  l.all wsOnlySpace && noTwoAdjWS l && headNotWS l && headNotWS l.reverse

/-! ## Dict lemmas -/

theorem hasKey_cons {α : Type} (kv : String × α) (f : List (String × α))
    (k : String) : hasKey (kv :: f) k = ((kv.1 == k) || hasKey f k) := by
  simp [hasKey]

theorem hasKey_append {α : Type} (f g : List (String × α)) (k : String) :
    hasKey (f ++ g) k = (hasKey f k || hasKey g k) := by
  simp [hasKey]

theorem any_map_updKey {α : Type} (f : List (String × α)) (k k' : String)
    (v : α) :
    ((f.map (fun kv => if kv.1 == k then (k, v) else kv)).any
        (fun kv => kv.1 == k')) =
      f.any (fun kv => kv.1 == k') := by
  induction f with
  | nil => rfl
  | cons kv rest ih =>
    simp only [List.map_cons, List.any_cons, ih]
    by_cases hb : kv.1 = k
    · by_cases hk : k = k' <;> simp [hb, hk]
    · simp [hb]

theorem hasKey_dictSet {α : Type} (f : List (String × α)) (k k' : String)
    (v : α) :
    hasKey (dictSet f k v) k' = (hasKey f k' || (k == k')) := by
  unfold dictSet
  by_cases h : hasKey f k
  · simp only [h, if_true]
    show ((f.map _).any _) = _
    rw [any_map_updKey]
    by_cases hk : k = k'
    · subst hk
      simpa [hasKey] using h
    · simp [hasKey, hk]
  · simp only [h]
    rw [if_neg (by simp [h])]
    simp [hasKey_append, hasKey, hasKey_cons]

theorem hasKey_dictSet_self {α : Type} (f : List (String × α)) (k : String)
    (v : α) : hasKey (dictSet f k v) k = true := by
  simp [hasKey_dictSet]

theorem hasKey_dictSet_ne {α : Type} (f : List (String × α)) (k k' : String)
    (v : α) (h : k ≠ k') : hasKey (dictSet f k v) k' = hasKey f k' := by
  simp [hasKey_dictSet, h]

theorem find?_eq_none_of_not_hasKey {α : Type} (f : List (String × α))
    (k : String) (h : hasKey f k = false) :
    f.find? (fun kv => kv.1 == k) = none := by
  induction f with
  | nil => rfl
  | cons kv rest ih =>
    rw [hasKey_cons] at h
    simp only [Bool.or_eq_false_iff] at h
    simp [List.find?, h.1, ih h.2]

theorem find?_map_updKey {α : Type} (f : List (String × α)) (k : String)
    (v : α) (h : hasKey f k = true) :
    (f.map (fun kv => if kv.1 == k then (k, v) else kv)).find?
        (fun kv => kv.1 == k) = some (k, v) := by
  induction f with
  | nil => simp [hasKey] at h
  | cons kv rest ih =>
    by_cases hb : kv.1 = k
    · simp [List.find?, hb]
    · rw [hasKey_cons] at h
      have h' : hasKey rest k = true := by simpa [hb] using h
      simp only [List.map_cons]
      rw [List.find?_cons_of_neg, ih h']
      simp [hb]

theorem dictGet?_dictSet_self {α : Type} (f : List (String × α)) (k : String)
    (v : α) : dictGet? (dictSet f k v) k = some v := by
  unfold dictSet
  by_cases h : hasKey f k
  · simp only [h, if_true]
    unfold dictGet?
    rw [find?_map_updKey f k v h]
    rfl
  · simp only [h]
    rw [if_neg (by simp [h])]
    simp [dictGet?, List.find?_append, find?_eq_none_of_not_hasKey f k (by simp [h]),
      List.find?]

theorem dictGet?_map_values {α β : Type} (f : List (String × α))
    (g : α → β) (k : String) :
    dictGet? (f.map (fun kv => (kv.1, g kv.2))) k = (dictGet? f k).map g := by
  induction f with
  | nil => rfl
  | cons kv rest ih =>
    unfold dictGet? at *
    simp only [List.map_cons]
    by_cases hb : kv.1 = k
    · rw [List.find?_cons_of_pos, List.find?_cons_of_pos] <;> simp [hb]
    · rw [List.find?_cons_of_neg, List.find?_cons_of_neg, ih] <;> simp [hb]

/-! ## Lemmas about the whitespace compaction -/

theorem subWSGo_all (l : List Char) :
    ∀ b, (subWSGo b l).all wsOnlySpace = true := by
  induction l with
  | nil => intro b; rfl
  | cons c cs ih =>
    intro b
    by_cases hc : pyIsSpace c
    · cases b <;> simp [subWSGo, hc, ih, wsOnlySpace]
    · simp [subWSGo, hc, ih, wsOnlySpace]

theorem noTwoAdjWS_cons_of_not {c : Char} {l : List Char}
    (hc : pyIsSpace c = false) (hl : noTwoAdjWS l = true) :
    noTwoAdjWS (c :: l) = true := by
  cases l with
  | nil => rfl
  | cons d t => simp [noTwoAdjWS, hc, hl]

theorem noTwoAdjWS_cons_space {l : List Char} (hl : noTwoAdjWS l = true)
    (hh : headNotWS l = true) : noTwoAdjWS (' ' :: l) = true := by
  cases l with
  | nil => rfl
  | cons d t =>
    simp only [headNotWS, Bool.not_eq_true'] at hh
    simp [noTwoAdjWS, hh, hl]

theorem subWSGo_chain (l : List Char) :
    ∀ b, noTwoAdjWS (subWSGo b l) = true ∧
      (b = true → headNotWS (subWSGo b l) = true) := by
  induction l with
  | nil => intro b; exact ⟨rfl, fun _ => rfl⟩
  | cons c cs ih =>
    intro b
    by_cases hc : pyIsSpace c
    · cases b with
      | true => simpa [subWSGo, hc] using ⟨(ih true).1, (ih true).2 rfl⟩
      | false =>
        refine ⟨?_, fun h => by cases h⟩
        simpa [subWSGo, hc] using
          noTwoAdjWS_cons_space ((ih true).1) ((ih true).2 rfl)
    · have hgo : subWSGo b (c :: cs) = c :: subWSGo false cs := by
        simp [subWSGo, hc]
      refine ⟨?_, fun _ => ?_⟩
      · rw [hgo]
        exact noTwoAdjWS_cons_of_not (by simp [hc]) (ih false).1
      · rw [hgo]
        simp [headNotWS, hc]

theorem noTwoAdjWS_tail {c : Char} {l : List Char}
    (h : noTwoAdjWS (c :: l) = true) : noTwoAdjWS l = true := by
  cases l with
  | nil => rfl
  | cons d t =>
    simp only [noTwoAdjWS, Bool.and_eq_true] at h
    exact h.2

theorem noTwoAdjWS_dropWhile (p : Char → Bool) (l : List Char)
    (h : noTwoAdjWS l = true) : noTwoAdjWS (l.dropWhile p) = true := by
  induction l with
  | nil => rfl
  | cons c cs ih =>
    by_cases hc : p c
    · simpa [List.dropWhile, hc] using ih (noTwoAdjWS_tail h)
    · simpa [List.dropWhile, hc] using h

/-- Whether appending one character keeps adjacency clean at the seam. -/
def lastPairOk (l : List Char) (c : Char) : Bool :=
  match l.getLast? with
  | none => true
  | some d => !(pyIsSpace d && pyIsSpace c)

theorem noTwoAdjWS_concat (l : List Char) (c : Char) :
    noTwoAdjWS (l ++ [c]) = (noTwoAdjWS l && lastPairOk l c) := by
  induction l with
  | nil => rfl
  | cons a t ih =>
    cases t with
    | nil => simp [noTwoAdjWS, lastPairOk, Bool.and_comm]
    | cons b t' =>
      have hstep : noTwoAdjWS ((a :: b :: t') ++ [c]) =
          ((!(pyIsSpace a && pyIsSpace b)) && noTwoAdjWS ((b :: t') ++ [c])) := rfl
      rw [hstep, ih]
      have hlast : lastPairOk (a :: b :: t') c = lastPairOk (b :: t') c := by
        simp [lastPairOk, List.getLast?_cons_cons]
      rw [hlast]
      have hA : noTwoAdjWS (a :: b :: t') =
          ((!(pyIsSpace a && pyIsSpace b)) && noTwoAdjWS (b :: t')) := rfl
      rw [hA, Bool.and_assoc]

theorem noTwoAdjWS_reverse (l : List Char) (h : noTwoAdjWS l = true) :
    noTwoAdjWS l.reverse = true := by
  induction l with
  | nil => rfl
  | cons c cs ih =>
    rw [List.reverse_cons, noTwoAdjWS_concat]
    have h2 : noTwoAdjWS cs.reverse = true := ih (noTwoAdjWS_tail h)
    have h3 : lastPairOk cs.reverse c = true := by
      unfold lastPairOk
      rw [List.getLast?_reverse]
      cases cs with
      | nil => rfl
      | cons d t =>
        simp only [noTwoAdjWS, Bool.and_eq_true] at h
        simp only [List.head?_cons]
        simpa [Bool.and_comm] using h.1
    simp [h2, h3]

theorem all_mem_of_all {p : Char → Bool} {l l' : List Char}
    (hsub : ∀ c, c ∈ l' → c ∈ l) (h : l.all p = true) : l'.all p = true := by
  rw [List.all_eq_true] at h ⊢
  exact fun c hc => h c (hsub c hc)

theorem mem_of_mem_dropWhile {p : Char → Bool} {l : List Char} {c : Char}
    (h : c ∈ l.dropWhile p) : c ∈ l := by
  induction l with
  | nil => simp at h
  | cons a t ih =>
    by_cases ha : p a
    · simp only [List.dropWhile, ha] at h
      exact List.mem_cons_of_mem a (ih h)
    · simpa [List.dropWhile, ha] using h

theorem headNotWS_dropWhile (l : List Char) :
    headNotWS (l.dropWhile pyIsSpace) = true := by
  induction l with
  | nil => rfl
  | cons c cs ih =>
    by_cases hc : pyIsSpace c
    · simpa [List.dropWhile, hc] using ih
    · simp [List.dropWhile, hc, headNotWS]

theorem getLast?_dropWhile_of_ne_nil {p : Char → Bool} (l : List Char)
    (h : l.dropWhile p ≠ []) : (l.dropWhile p).getLast? = l.getLast? := by
  induction l with
  | nil => simp at h
  | cons c cs ih =>
    by_cases hc : p c
    · have hd : (c :: cs).dropWhile p = cs.dropWhile p := by
        simp [List.dropWhile, hc]
      rw [hd] at h ⊢
      have hcs : cs ≠ [] := by
        intro he
        subst he
        simp at h
      rw [ih h]
      obtain ⟨d, t, rfl⟩ := List.exists_cons_of_ne_nil hcs
      simp [List.getLast?_cons_cons]
    · simp [List.dropWhile, hc]

theorem headNotWS_head? (l : List Char) :
    headNotWS l = match l.head? with
      | none => true
      | some c => !pyIsSpace c := by
  cases l <;> rfl

theorem headNotWS_pyRStrip (l : List Char) (h : headNotWS l = true) :
    headNotWS (pyRStrip l) = true := by
  unfold pyRStrip
  by_cases hY : l.reverse.dropWhile pyIsSpace = []
  · simp [hY, headNotWS]
  · rw [headNotWS_head?, List.head?_reverse,
      getLast?_dropWhile_of_ne_nil _ hY, List.getLast?_reverse]
    rw [headNotWS_head?] at h
    exact h

theorem headNotWS_reverse_pyRStrip (l : List Char) :
    headNotWS (pyRStrip l).reverse = true := by
  unfold pyRStrip
  rw [List.reverse_reverse]
  exact headNotWS_dropWhile _

theorem pyStrip_headNot (l : List Char) : headNotWS (pyStrip l) = true :=
  headNotWS_pyRStrip _ (headNotWS_dropWhile l)

theorem pyStrip_lastNot (l : List Char) :
    headNotWS (pyStrip l).reverse = true :=
  headNotWS_reverse_pyRStrip _

theorem isNormalizedWS_pyNormWS (l : List Char) :
    isNormalizedWS (pyNormWS l) = true := by
  unfold isNormalizedWS
  have hall : (pyNormWS l).all wsOnlySpace = true := by
    have h0 : (subWS l).all wsOnlySpace = true := subWSGo_all l false
    unfold pyNormWS pyStrip pyRStrip
    refine all_mem_of_all (fun c hc => ?_) h0
    rw [List.mem_reverse] at hc
    have := mem_of_mem_dropWhile hc
    rw [List.mem_reverse] at this
    exact mem_of_mem_dropWhile this
  have hadj : noTwoAdjWS (pyNormWS l) = true := by
    have h0 : noTwoAdjWS (subWS l) = true := (subWSGo_chain l false).1
    unfold pyNormWS pyStrip pyRStrip
    exact noTwoAdjWS_reverse _ (noTwoAdjWS_dropWhile _ _
      (noTwoAdjWS_reverse _ (noTwoAdjWS_dropWhile _ _ h0)))
  have hh : headNotWS (pyNormWS l) = true := pyStrip_headNot _
  have hl : headNotWS (pyNormWS l).reverse = true := pyStrip_lastNot _
  simp [hall, hadj, hh, hl]

/-! ## Lemmas about the per-line scan -/

theorem goScan_shape (entries : List (String × List Matcher))
    (f : List (String × List Char)) (ln : List Char) :
    goScan entries f ln = f ∨
      ∃ k v, k ∈ entries.map Prod.fst ∧ goScan entries f ln = dictSet f k v := by
  induction entries with
  | nil => exact Or.inl rfl
  | cons e rest ih =>
    obtain ⟨k, pats⟩ := e
    cases htry : tryPats pats ln with
    | some g =>
      refine Or.inr ⟨k, pyStrip g, by simp, ?_⟩
      simp [goScan, htry, hasKey_dictSet_self]
    | none =>
      by_cases hk : hasKey f k = true
      · exact Or.inl (by simp [goScan, htry, hk])
      · have hrec : goScan ((k, pats) :: rest) f ln = goScan rest f ln := by
          simp [goScan, htry, hk]
        rw [hrec]
        rcases ih with h | ⟨k', v', hm, he⟩
        · exact Or.inl h
        · exact Or.inr ⟨k', v', by simp [hm], he⟩

/-- C2: the per-line stop condition.  What holds of the code: a line sets
at most one attribute — the scan of a line stops at the first key present
after that key's patterns are tried, in particular as soon as one pattern
succeeds — so processing a line either leaves the field dict unchanged or
performs exactly one dict assignment of a key from the pattern table. -/
theorem scanLine_sets_at_most_one (f : List (String × List Char))
    (ln : List Char) :
    scanLine f ln = f ∨
      ∃ k v, k ∈ FIELD_PATTERNS.map Prod.fst ∧ scanLine f ln = dictSet f k v :=
  goScan_shape FIELD_PATTERNS f ln

/-- C2 counterexample: first occurrence does not win.  On the body with two
Director lines, the second line overwrites the first value: the stored
director is Y, not X, refuting that an attribute set from an earlier line
is never overwritten by a later line. -/
theorem director_overwritten_counterexample :
    parse_movie "Director: X\nDirector: Y" =
      [("director", "Y"), ("title", "Director: X")] := by
  decide

/-- C4: every string value in the mapping returned by parse_movie is
whitespace-normalized — internal whitespace runs collapsed to a single
space, and no leading or trailing whitespace. -/
theorem parse_values_ws_normalized (text : String) (kv : String × String)
    (h : kv ∈ parse_movie text) : isNormalizedWS kv.2.data = true := by
  unfold parse_movie at h
  rw [List.mem_map] at h
  obtain ⟨kv0, _, rfl⟩ := h
  simpa using isNormalizedWS_pyNormWS kv0.2

/-- C4 witness: the hypothesis is satisfiable — the record parsed from a
body with messy whitespace contains the normalized value. -/
theorem parse_values_ws_normalized_witness :
    ("title", "a b") ∈ parse_movie "Title:  a \tb" ∧
      isNormalizedWS "a b".data = true :=
  ⟨by decide,
   parse_values_ws_normalized "Title:  a \tb" ("title", "a b") (by decide)⟩

/-! ## Lookback-window claims -/

theorem matchWindow_concat (ds : List Char) (u : Char) (h1 : ds ≠ [])
    (h2 : ds.all isDigitC = true) (hu : u = 'd' ∨ u = 'h' ∨ u = 'm') :
    matchWindow (ds ++ [u]) = some (natOfDigits ds, u) := by
  unfold matchWindow
  rw [List.getLast?_concat, List.dropLast_concat]
  simp [h1, h2, hu]

/-- C6: a stripped window argument of the shape digits then d, h or m
yields a cutoff of now minus that many days, hours or minutes; any
argument the window regex does not match silently falls back to a cutoff
of now minus thirty days, in particular the spec examples 7d and
not-a-window.  The computation is total, so no error is ever raised. -/
theorem lookback_window_cutoff (now : Int) (s : String) :
    (∀ ds : List Char, ds ≠ [] → ds.all isDigitC = true →
      (pyStrip s.data = ds ++ ['d'] →
        since_dt now s = now - 86400 * (natOfDigits ds : Int)) ∧
      (pyStrip s.data = ds ++ ['h'] →
        since_dt now s = now - 3600 * (natOfDigits ds : Int)) ∧
      (pyStrip s.data = ds ++ ['m'] →
        since_dt now s = now - 60 * (natOfDigits ds : Int))) ∧
    (matchWindow (pyStrip s.data) = none →
      since_dt now s = now - 86400 * 30) ∧
    since_dt now "7d" = now - 604800 ∧
    since_dt now "not-a-window" = now - 2592000 := by
  refine ⟨?_, ?_, ?_, ?_⟩
  · intro ds h1 h2
    refine ⟨?_, ?_, ?_⟩ <;> intro hs <;>
      simp [since_dt, deltaSeconds, hs, matchWindow_concat ds _ h1 h2]
  · intro hnone
    simp [since_dt, deltaSeconds, hnone]
  · have h : deltaSeconds "7d" = 604800 := by decide
    show now - deltaSeconds "7d" = now - 604800
    rw [h]
  · have h : deltaSeconds "not-a-window" = 2592000 := by decide
    show now - deltaSeconds "not-a-window" = now - 2592000
    rw [h]

/-- C6 witness: the shape hypotheses hold of the input 90d, and the cutoff
is ninety days before now. -/
theorem lookback_window_cutoff_witness :
    pyStrip ("90d".data) = ['9', '0'] ++ ['d'] ∧
      since_dt 0 "90d" = 0 - 86400 * ((natOfDigits ['9', '0'] : Nat) : Int) :=
  ⟨by decide,
   ((lookback_window_cutoff 0 "90d").1 ['9', '0'] (by decide) (by decide)).1
     (by decide)⟩

/-! ## Driver claims -/

/-- C5: a message whose body is absent, empty or whitespace-only is skipped
by the sync loop before any record is built: no upsert call is produced for
it. -/
theorem empty_body_skipped (rls : Option String) (iso : Int → String)
    (sinceDt : Int) (cover : Option String) (msg : TgMessage)
    (h : ∀ body, msg.message = some body → pyStrip body.data = []) :
    syncStep rls iso sinceDt cover msg = none := by
  unfold syncStep
  by_cases hd : msg.dateUtc < sinceDt
  · simp [hd]
  · cases hm : msg.message with
    | none => simp [hd]
    | some body => simp [hd, h body hm]

/-- C5 witness: a whitespace-only body inside the time window is skipped. -/
theorem empty_body_skipped_witness :
    syncStep none (fun _ => "") 0 none
      { id := 1, message := some "  \t ", dateUtc := 50,
        hasPhotoMedia := false } = none :=
  empty_body_skipped _ _ _ _ _
    (by intro b hb; injection hb with h; subst h; decide)

/-- C1 evidence: on the spec scenario body the code produces a record with
only the title set; the director and genre lines are never matched, because
the scan of each later line stops at the already-set title key.  The single
upsert call keyed on the message id is made, but its payload lacks the
director and genre columns the claim requires. -/
theorem inception_scenario_run :
    parse_movie "Title: Inception\nDirector: C. Nolan\nGenre: Sci-Fi" =
      [("title", "Inception")] ∧
    dictGet? (parse_movie "Title: Inception\nDirector: C. Nolan\nGenre: Sci-Fi")
        "director" = none ∧
    syncStep none (fun _ => "2026-01-01T00:00:00") 0 none
        { id := 42,
          message := some "Title: Inception\nDirector: C. Nolan\nGenre: Sci-Fi",
          dateUtc := 1000, hasPhotoMedia := false } =
      some { table := "movies",
             payload := [("title", PyVal.s "Inception"),
                         ("tg_message_id", PyVal.i 42),
                         ("tg_date", PyVal.s "2026-01-01T00:00:00")],
             on_conflict := "tg_message_id" } :=
  ⟨by decide, by decide, by decide⟩

/-- C8: a response carrying an error indicator is logged with the Supabase
error line and upsert_movie still returns; moreover the sequence of upsert
calls the driver makes is exactly the per-message results and does not
depend on any response errors, so one failed upsert never prevents later
messages from being processed. -/
theorem upsert_error_nonfatal (rls : Option String) (iso : Int → String)
    (sinceDt : Int) (envs : List MsgEnv) (e : String) :
    upsert_movie_log (some e) = ["Supabase upsert error: " ++ e] ∧
    (syncRun rls iso sinceDt envs).1 =
      envs.filterMap (fun env => syncStep rls iso sinceDt env.cover env.msg) := by
  refine ⟨rfl, ?_⟩
  induction envs with
  | nil => rfl
  | cons env rest ih =>
    simp only [syncRun, List.filterMap_cons]
    cases h : syncStep rls iso sinceDt env.cover env.msg with
    | none => simpa using ih
    | some c => simpa using ih

/-! ## Payload and table lemmas for the upsert claims -/

theorem find?_append_none {α : Type} {l1 : List α} (l2 : List α)
    {p : α → Bool} (h : l1.find? p = none) :
    (l1 ++ l2).find? p = l2.find? p := by
  induction l1 with
  | nil => rfl
  | cons a t ih =>
    by_cases ha : p a
    · rw [List.find?_cons_of_pos _ ha] at h
      cases h
    · rw [List.find?_cons_of_neg _ ha] at h
      rw [List.cons_append, List.find?_cons_of_neg _ ha]
      exact ih h

theorem find?_append_some {α : Type} {l1 : List α} (l2 : List α)
    {p : α → Bool} {x : α} (h : l1.find? p = some x) :
    (l1 ++ l2).find? p = some x := by
  induction l1 with
  | nil => cases h
  | cons a t ih =>
    by_cases ha : p a
    · rw [List.find?_cons_of_pos _ ha] at h
      rw [List.cons_append, List.find?_cons_of_pos _ ha]
      exact h
    · rw [List.find?_cons_of_neg _ ha] at h
      rw [List.cons_append, List.find?_cons_of_neg _ ha]
      exact ih h

theorem find?_optS_ne (k' : String) (v : Option String) (k : String)
    (h : (k' == k) = false) :
    (optS k' v).find? (fun kv => kv.1 == k) = none := by
  cases v <;> simp [optS, List.find?, h]

theorem rowGet?_payload_id (rls : Option String) (m : Movie) (i : Int)
    (h : m.tg_message_id = some i) :
    rowGet? (upsertPayload rls m) "tg_message_id" = some (PyVal.i i) := by
  have hbase : (moviePayloadBase m).find?
      (fun kv => kv.1 == "tg_message_id") = some ("tg_message_id", PyVal.i i) := by
    unfold moviePayloadBase
    rw [h]
    simp only [List.append_assoc]
    rw [find?_append_none _ (find?_optS_ne _ _ _ (by decide)),
        find?_append_none _ (find?_optS_ne _ _ _ (by decide)),
        find?_append_none _ (find?_optS_ne _ _ _ (by decide)),
        find?_append_none _ (find?_optS_ne _ _ _ (by decide)),
        find?_append_none _ (find?_optS_ne _ _ _ (by decide)),
        find?_append_none _ (find?_optS_ne _ _ _ (by decide)),
        find?_append_none _ (find?_optS_ne _ _ _ (by decide)),
        find?_append_none _ (find?_optS_ne _ _ _ (by decide)),
        find?_append_none _ (find?_optS_ne _ _ _ (by decide)),
        find?_append_none _ (find?_optS_ne _ _ _ (by decide))]
    simp [optI, List.find?]
  unfold rowGet? dictGet? upsertPayload
  cases rls with
  | none => rw [hbase]; rfl
  | some uid =>
    by_cases hu : (rowGet? (moviePayloadBase m) "user_id").isNone
    · simp only [hu, if_true]
      rw [find?_append_some _ hbase]
      rfl
    · simp only [hu]
      rw [if_neg (by simp [hu]), hbase]
      rfl

theorem find?_map_updKey_ne {α : Type} (f : List (String × α))
    (k k' : String) (v : α) (h : (k == k') = false) :
    (f.map (fun kv => if kv.1 == k then (k, v) else kv)).find?
        (fun kv => kv.1 == k') = f.find? (fun kv => kv.1 == k') := by
  induction f with
  | nil => rfl
  | cons kv rest ih =>
    simp only [List.map_cons]
    by_cases hb : kv.1 = k
    · have hupd : (if kv.1 == k then (k, v) else kv) = (k, v) := by simp [hb]
      rw [hupd, List.find?_cons_of_neg _ (by simpa using h),
        List.find?_cons_of_neg _ (by simp [hb]; simpa using h), ih]
    · have hupd : (if kv.1 == k then (k, v) else kv) = kv := by simp [hb]
      rw [hupd]
      by_cases hk' : kv.1 = k'
      · rw [List.find?_cons_of_pos _ (by simp [hk']),
          List.find?_cons_of_pos _ (by simp [hk'])]
      · rw [List.find?_cons_of_neg _ (by simp [hk']),
          List.find?_cons_of_neg _ (by simp [hk']), ih]

theorem dictGet?_dictSet_ne {α : Type} (f : List (String × α))
    (k k' : String) (v : α) (h : k ≠ k') :
    dictGet? (dictSet f k v) k' = dictGet? f k' := by
  unfold dictSet
  by_cases hk : hasKey f k
  · simp only [hk, if_true]
    unfold dictGet?
    rw [find?_map_updKey_ne _ _ _ _ (by simp [h])]
  · rw [if_neg (by simp [hk])]
    unfold dictGet?
    cases hf : f.find? (fun kv => kv.1 == k') with
    | some x => rw [find?_append_some _ hf]
    | none =>
      rw [find?_append_none _ hf]
      have hkk : (k == k') = false := by simp [h]
      simp [List.find?, hkk]

theorem rowUpdate_nil (r : Row) : rowUpdate r [] = r := rfl

theorem rowUpdate_cons (r : Row) (kv : String × PyVal) (p : Row) :
    rowUpdate r (kv :: p) = rowUpdate (dictSet r kv.1 kv.2) p := rfl

theorem dictGet?_rowUpdate_not_has {p : Row} {k : String}
    (h : ∀ kv ∈ p, kv.1 ≠ k) (r : Row) :
    dictGet? (rowUpdate r p) k = dictGet? r k := by
  induction p generalizing r with
  | nil => rfl
  | cons kv rest ih =>
    rw [rowUpdate_cons, ih (fun x hx => h x (List.mem_cons_of_mem _ hx)),
      dictGet?_dictSet_ne _ _ _ _ (h kv (List.mem_cons_self _ _))]

theorem rowUpdate_get_superseded (p r : Row)
    (hnd : (p.map Prod.fst).Nodup) (k : String) (v : PyVal)
    (h : dictGet? p k = some v) :
    dictGet? (rowUpdate r p) k = some v := by
  induction p generalizing r with
  | nil => cases h
  | cons kv rest ih =>
    rw [rowUpdate_cons]
    by_cases hb : kv.1 = k
    · have hv : kv.2 = v := by
        unfold dictGet? at h
        rw [List.find?_cons_of_pos _ (by simp [hb])] at h
        simpa using h
      have hnotin : ∀ x ∈ rest, x.1 ≠ k := by
        intro x hx he
        have hmem : k ∈ rest.map Prod.fst := by
          rw [← he]
          exact List.mem_map_of_mem _ hx
        rw [List.map_cons, List.nodup_cons] at hnd
        exact hnd.1 (hb ▸ hmem)
      rw [dictGet?_rowUpdate_not_has hnotin]
      rw [← hb, ← hv]
      exact dictGet?_dictSet_self _ _ _
    · have h' : dictGet? rest k = some v := by
        unfold dictGet? at h ⊢
        rwa [List.find?_cons_of_neg _ (by simp [hb])] at h
      have hnd' : (rest.map Prod.fst).Nodup := by
        rw [List.map_cons, List.nodup_cons] at hnd
        exact hnd.2
      exact ih _ hnd' h'

/-- The column names of the Movie record in dataclass order, followed by
the optional owner column. -/
def movieColumnNames : List String :=
  ["title", "link", "synopsis", "director", "product", "stars", "imdb",
   "release_info", "genre", "cover_url", "tg_message_id", "tg_date"]

theorem map_fst_optS_sublist (k : String) (v : Option String) :
    List.Sublist ((optS k v).map Prod.fst) [k] := by
  cases v <;> simp [optS]

theorem map_fst_optI_sublist (k : String) (v : Option Int) :
    List.Sublist ((optI k v).map Prod.fst) [k] := by
  cases v <;> simp [optI]

theorem payload_keys_sublist (rls : Option String) (m : Movie) :
    List.Sublist ((upsertPayload rls m).map Prod.fst) (movieColumnNames ++ ["user_id"]) := by
  have hbase : List.Sublist ((moviePayloadBase m).map Prod.fst) movieColumnNames := by
    unfold moviePayloadBase movieColumnNames
    simp only [List.map_append]
    have h12 := map_fst_optS_sublist "tg_date" m.tg_date
    have h11 := (map_fst_optI_sublist "tg_message_id" m.tg_message_id).append h12
    have h10 := (map_fst_optS_sublist "cover_url" m.cover_url).append h11
    have h9 := (map_fst_optS_sublist "genre" m.genre).append h10
    have h8 := (map_fst_optS_sublist "release_info" m.release_info).append h9
    have h7 := (map_fst_optS_sublist "imdb" m.imdb).append h8
    have h6 := (map_fst_optS_sublist "stars" m.stars).append h7
    have h5 := (map_fst_optS_sublist "product" m.product).append h6
    have h4 := (map_fst_optS_sublist "director" m.director).append h5
    have h3 := (map_fst_optS_sublist "synopsis" m.synopsis).append h4
    have h2 := (map_fst_optS_sublist "link" m.link).append h3
    have h1 := (map_fst_optS_sublist "title" m.title).append h2
    simpa using h1
  unfold upsertPayload
  cases rls with
  | none =>
    exact hbase.trans (List.sublist_append_left _ _)
  | some uid =>
    by_cases hu : (rowGet? (moviePayloadBase m) "user_id").isNone
    · simp only [hu, if_true, List.map_append]
      exact hbase.append (List.Sublist.refl _)
    · simp only [hu]
      rw [if_neg (by simp [hu])]
      exact hbase.trans (List.sublist_append_left _ _)

theorem payload_keys_nodup (rls : Option String) (m : Movie) :
    ((upsertPayload rls m).map Prod.fst).Nodup :=
  List.Nodup.sublist (payload_keys_sublist rls m) (by decide)

/-- C7: re-processing a message with the same id is idempotent at the
table.  Starting from an empty table, upserting two payloads built for the
same tg_message_id leaves exactly one stored row (no duplicate), the
conflict key used is tg_message_id, and every column present in the second
payload supersedes the stored value. -/
theorem upsert_idempotent_on_message_id (rls1 rls2 : Option String)
    (m1 m2 : Movie) (i : Int) (h1 : m1.tg_message_id = some i)
    (h2 : m2.tg_message_id = some i) :
    ∃ r : Row,
      tableUpsert
          (tableUpsert [] (upsert_movie_call rls1 m1).on_conflict
            (upsert_movie_call rls1 m1).payload)
          (upsert_movie_call rls2 m2).on_conflict
          (upsert_movie_call rls2 m2).payload = [r] ∧
        (∀ k v, dictGet? (upsert_movie_call rls2 m2).payload k = some v →
          dictGet? r k = some v) ∧
        (upsert_movie_call rls2 m2).on_conflict = "tg_message_id" := by
  have g1 := rowGet?_payload_id rls1 m1 i h1
  have g2 := rowGet?_payload_id rls2 m2 i h2
  have hconf : rowConflict "tg_message_id" (upsertPayload rls2 m2)
      (upsertPayload rls1 m1) = true := by
    unfold rowConflict
    rw [g1, g2]
    simp
  refine ⟨rowUpdate (upsertPayload rls1 m1) (upsertPayload rls2 m2), ?_, ?_, rfl⟩
  · show tableUpsert (tableUpsert [] "tg_message_id" (upsertPayload rls1 m1))
        "tg_message_id" (upsertPayload rls2 m2) = _
    have ht1 : tableUpsert [] "tg_message_id" (upsertPayload rls1 m1) =
        [upsertPayload rls1 m1] := by
      unfold tableUpsert
      simp
    rw [ht1]
    unfold tableUpsert
    simp [hconf]
  · intro k v hv
    exact rowUpdate_get_superseded _ _ (payload_keys_nodup rls2 m2) k v hv

/-- C7 witness: two records with message id five, the second with a new
title, collapse to a single stored row carrying the second title. -/
theorem upsert_idempotent_on_message_id_witness :
    ∃ r : Row,
      tableUpsert
          (tableUpsert []
            (upsert_movie_call none
              { title := some "A", tg_message_id := some 5 }).on_conflict
            (upsert_movie_call none
              { title := some "A", tg_message_id := some 5 }).payload)
          (upsert_movie_call none
            { title := some "B", tg_message_id := some 5 }).on_conflict
          (upsert_movie_call none
            { title := some "B", tg_message_id := some 5 }).payload = [r] ∧
        (∀ k v,
          dictGet? (upsert_movie_call none
            { title := some "B", tg_message_id := some 5 }).payload k = some v →
          dictGet? r k = some v) ∧
        (upsert_movie_call none
          { title := some "B", tg_message_id := some 5 }).on_conflict =
          "tg_message_id" :=
  upsert_idempotent_on_message_id none none
    { title := some "A", tg_message_id := some 5 }
    { title := some "B", tg_message_id := some 5 } 5 rfl rfl

/-! ## Key-subset invariants of the parser -/

/-- All keys of a field dict lie among the nine attribute names. -/
def allKeysIn {α : Type} (f : List (String × α)) : Bool :=
  f.all (fun kv => decide (kv.1 ∈ movieAttrNames))

theorem allKeysIn_dictSet {α : Type} (f : List (String × α)) (k : String)
    (v : α) (hk : k ∈ movieAttrNames) (hf : allKeysIn f = true) :
    allKeysIn (dictSet f k v) = true := by
  unfold dictSet
  by_cases h : hasKey f k
  · simp only [h, if_true]
    unfold allKeysIn at hf ⊢
    rw [List.all_eq_true] at hf ⊢
    intro kv hkv
    rw [List.mem_map] at hkv
    obtain ⟨kv0, hm, rfl⟩ := hkv
    by_cases hb : kv0.1 = k
    · simp [hb, hk]
    · simpa [hb] using hf kv0 hm
  · rw [if_neg (by simp [h])]
    unfold allKeysIn at hf ⊢
    simp [List.all_append, hf, hk]

theorem goScan_keys (entries : List (String × List Matcher))
    (f : List (String × List Char)) (ln : List Char)
    (he : ∀ e ∈ entries, e.1 ∈ movieAttrNames)
    (hf : allKeysIn f = true) : allKeysIn (goScan entries f ln) = true := by
  induction entries generalizing f with
  | nil => exact hf
  | cons e rest ih =>
    obtain ⟨k, pats⟩ := e
    have hk : k ∈ movieAttrNames := he _ (List.mem_cons_self _ _)
    have he' : ∀ e ∈ rest, e.1 ∈ movieAttrNames :=
      fun e hm => he e (List.mem_cons_of_mem _ hm)
    cases htry : tryPats pats ln with
    | some g =>
      have hset : allKeysIn (dictSet f k (pyStrip g)) = true :=
        allKeysIn_dictSet f k _ hk hf
      simp only [goScan, htry]
      by_cases hhk : hasKey (dictSet f k (pyStrip g)) k
      · simpa [hhk] using hset
      · simpa [hhk] using ih _ he' hset
    | none =>
      simp only [goScan, htry]
      by_cases hhk : hasKey f k
      · simpa [hhk] using hf
      · simpa [hhk] using ih _ he' hf

theorem scanFields_keys (lines : List (List Char)) :
    ∀ f, allKeysIn f = true → allKeysIn (lines.foldl scanLine f) = true := by
  induction lines with
  | nil => exact fun f hf => hf
  | cons ln rest ih =>
    intro f hf
    exact ih _ (goScan_keys FIELD_PATTERNS f ln (by decide) hf)

theorem rawFields_keys (text : String) : allKeysIn (rawFields text) = true := by
  unfold rawFields
  have hscan : allKeysIn (scanFields (parsedLines text)) = true :=
    scanFields_keys (parsedLines text) [] rfl
  by_cases h : (!hasKey (scanFields (parsedLines text)) "title" &&
      !(parsedLines text).isEmpty) = true
  · simp only [h, if_true]
    exact allKeysIn_dictSet _ _ _ (by decide) hscan
  · simp only [h, if_false]
    exact hscan

theorem foldlM_movieSet_isSome (l : List (String × String)) :
    ∀ m : Movie, (l.all fun kv => decide (kv.1 ∈ movieAttrNames)) = true →
      (l.foldlM (fun m kv => movieSetField? m kv.1 kv.2) m).isSome = true := by
  induction l with
  | nil => intro m _; rfl
  | cons kv rest ih =>
    intro m hall
    rw [List.all_cons, Bool.and_eq_true] at hall
    have h9 : kv.1 ∈ movieAttrNames := of_decide_eq_true hall.1
    have hrest := hall.2
    simp only [movieAttrNames, List.mem_cons, List.mem_singleton,
      List.not_mem_nil, or_false] at h9
    rcases h9 with h | h | h | h | h | h | h | h | h <;>
      simpa [List.foldlM_cons, movieSetField?, h] using ih _ hrest

/-- C10: for every input text, the keys of the mapping returned by
parse_movie are a subset of the nine known attribute names, and
constructing the Movie record from that mapping by keyword expansion
always succeeds. -/
theorem parse_keys_movie_safe (text : String) :
    ((parse_movie text).all fun kv => decide (kv.1 ∈ movieAttrNames)) = true ∧
    (movieOfFields (parse_movie text)).isSome = true := by
  have hkeys : ((parse_movie text).all fun kv =>
      decide (kv.1 ∈ movieAttrNames)) = true := by
    have hraw := rawFields_keys text
    unfold allKeysIn at hraw
    unfold parse_movie
    rw [List.all_eq_true] at hraw ⊢
    intro kv hkv
    rw [List.mem_map] at hkv
    obtain ⟨kv0, hm, rfl⟩ := hkv
    exact hraw kv0 hm
  exact ⟨hkeys, foldlM_movieSet_isSome _ _ hkeys⟩

/-! ## The title fallback -/

theorem goScan_no_title (entries : List (String × List Matcher))
    (f : List (String × List Char)) (ln : List Char)
    (he : ∀ e ∈ entries, e.1 ≠ "title")
    (hf : hasKey f "title" = false) :
    hasKey (goScan entries f ln) "title" = false := by
  induction entries generalizing f with
  | nil => exact hf
  | cons e rest ih =>
    obtain ⟨k, pats⟩ := e
    have hk : k ≠ "title" := he _ (List.mem_cons_self _ _)
    have he' : ∀ e ∈ rest, e.1 ≠ "title" :=
      fun e hm => he e (List.mem_cons_of_mem _ hm)
    cases htry : tryPats pats ln with
    | some g =>
      have hset : hasKey (dictSet f k (pyStrip g)) "title" = false := by
        rw [hasKey_dictSet_ne _ _ _ _ hk]
        exact hf
      simp only [goScan, htry]
      by_cases hhk : hasKey (dictSet f k (pyStrip g)) k
      · simpa [hhk] using hset
      · simpa [hhk] using ih _ he' hset
    | none =>
      simp only [goScan, htry]
      by_cases hhk : hasKey f k
      · simpa [hhk] using hf
      · simpa [hhk] using ih _ he' hf

theorem goScan_cons_none (k : String) (pats : List Matcher)
    (rest : List (String × List Matcher)) (f : List (String × List Char))
    (ln : List Char) (htry : tryPats pats ln = none)
    (hk : hasKey f k = false) :
    goScan ((k, pats) :: rest) f ln = goScan rest f ln := by
  simp only [goScan, htry]
  rw [if_neg (by simp [hk])]

theorem scanLine_no_title (f : List (String × List Char)) (ln : List Char)
    (h1 : matchTitleEn ln = none) (h2 : matchTitleFa ln = none)
    (hf : hasKey f "title" = false) :
    hasKey (scanLine f ln) "title" = false := by
  have htry : tryPats [matchTitleEn, matchTitleFa] ln = none := by
    simp [tryPats, h1, h2]
  unfold scanLine FIELD_PATTERNS
  rw [goScan_cons_none _ _ _ _ _ htry hf]
  refine goScan_no_title _ _ _ ?_ hf
  decide

theorem foldl_scanLine_no_title (lines : List (List Char)) :
    ∀ f, (∀ ln ∈ lines, matchTitleEn ln = none ∧ matchTitleFa ln = none) →
      hasKey f "title" = false →
      hasKey (lines.foldl scanLine f) "title" = false := by
  induction lines with
  | nil => exact fun f _ hf => hf
  | cons ln rest ih =>
    intro f h hf
    exact ih _ (fun l hl => h l (List.mem_cons_of_mem _ hl))
      (scanLine_no_title f ln (h ln (List.mem_cons_self _ _)).1
        (h ln (List.mem_cons_self _ _)).2 hf)

theorem parsedLines_mem {text : String} {l : List Char}
    (h : l ∈ parsedLines text) : l ≠ [] ∧ headNotWS l = true := by
  unfold parsedLines at h
  rw [List.mem_filter] at h
  obtain ⟨hmem, hne⟩ := h
  rw [List.mem_map] at hmem
  obtain ⟨y, _, rfl⟩ := hmem
  exact ⟨by simpa using hne, pyStrip_headNot y⟩

theorem dropWhile_ne_nil_of_mem {p : Char → Bool} {l : List Char} {c : Char}
    (hc : c ∈ l) (hp : p c = false) : l.dropWhile p ≠ [] := by
  induction l with
  | nil => cases hc
  | cons a t ih =>
    by_cases ha : p a
    · rcases List.mem_cons.1 hc with rfl | hct
      · rw [ha] at hp
        cases hp
      · simpa [List.dropWhile, ha] using ih hct
    · simp [List.dropWhile, ha]

theorem pyNormWS_ne_nil {c : Char} (t : List Char)
    (hc : pyIsSpace c = false) : pyNormWS (c :: t) ≠ [] := by
  unfold pyNormWS subWS
  have h1 : subWSGo false (c :: t) = c :: subWSGo false t := by
    simp [subWSGo, hc]
  rw [h1]
  unfold pyStrip pyRStrip
  have h2 : (c :: subWSGo false t).dropWhile pyIsSpace =
      c :: subWSGo false t := by
    simp [List.dropWhile, hc]
  rw [h2]
  intro hcontra
  rw [List.reverse_eq_nil_iff] at hcontra
  exact dropWhile_ne_nil_of_mem (by simp) hc hcontra

/-- C3: when the parsed lines are non-empty and no line matches either
title label pattern, the raw field dict gets the first line truncated to
two hundred characters assigned as title, the returned mapping carries its
whitespace-compacted form, and that title is populated (non-empty). -/
theorem title_fallback (text : String)
    (hne : parsedLines text ≠ [])
    (hnm : ∀ ln ∈ parsedLines text,
      matchTitleEn ln = none ∧ matchTitleFa ln = none) :
    dictGet? (rawFields text) "title" =
      some (((parsedLines text).headD []).take 200) ∧
    dictGet? (parse_movie text) "title" =
      some (String.mk (pyNormWS (((parsedLines text).headD []).take 200))) ∧
    pyNormWS (((parsedLines text).headD []).take 200) ≠ [] := by
  have hnot : hasKey (scanFields (parsedLines text)) "title" = false :=
    foldl_scanLine_no_title (parsedLines text) [] hnm rfl
  have hempty : (parsedLines text).isEmpty = false := by
    simpa [List.isEmpty_iff] using hne
  have hraw : rawFields text = dictSet (scanFields (parsedLines text)) "title"
      (((parsedLines text).headD []).take 200) := by
    unfold rawFields
    simp [hnot, hempty]
  refine ⟨?_, ?_, ?_⟩
  · rw [hraw]
    exact dictGet?_dictSet_self _ _ _
  · unfold parse_movie
    rw [dictGet?_map_values (rawFields text)
        (fun v => String.mk (pyNormWS v)) "title",
      hraw, dictGet?_dictSet_self]
    rfl
  · obtain ⟨f0, rest, hl⟩ := List.exists_cons_of_ne_nil hne
    obtain ⟨hne0, hhead0⟩ := parsedLines_mem (l := f0)
      (by rw [hl]; exact List.mem_cons_self _ _)
    obtain ⟨c, t, hct⟩ := List.exists_cons_of_ne_nil hne0
    have hc : pyIsSpace c = false := by
      rw [hct] at hhead0
      simpa [headNotWS] using hhead0
    rw [hl]
    simp only [List.headD_cons]
    rw [hct]
    show pyNormWS (c :: t.take 199) ≠ []
    exact pyNormWS_ne_nil _ hc

/-- C3 witness: a single unlabeled line becomes the title and is
populated. -/
theorem title_fallback_witness :
    dictGet? (rawFields "Some Movie") "title" =
      some (((parsedLines "Some Movie").headD []).take 200) ∧
    dictGet? (parse_movie "Some Movie") "title" =
      some (String.mk (pyNormWS
        (((parsedLines "Some Movie").headD []).take 200))) ∧
    pyNormWS (((parsedLines "Some Movie").headD []).take 200) ≠ [] :=
  title_fallback "Some Movie" (by decide) (by decide)

/-! ## Labeled titles are not truncated -/

theorem splitlinesAux_cons_plain (c : Char) (cs acc : List Char)
    (h2 : isLineBoundary c = false) :
    splitlinesAux (c :: cs) acc = splitlinesAux cs (c :: acc) := by
  have h1 : c ≠ '\r' := by
    intro he
    subst he
    cases h2
  cases cs with
  | nil => simp [splitlinesAux, h1, h2]
  | cons d cs2 =>
    by_cases hd : d = '\n'
    · subst hd
      simp [splitlinesAux, h1, h2]
    · simp [splitlinesAux, h1, h2, hd]

theorem splitlinesAux_no_boundary (l : List Char) :
    ∀ acc, (∀ c ∈ l, isLineBoundary c = false) →
      splitlinesAux l acc =
        if (acc.reverse ++ l).isEmpty then [] else [acc.reverse ++ l] := by
  induction l with
  | nil =>
    intro acc _
    cases acc with
    | nil => rfl
    | cons a t => simp [splitlinesAux]
  | cons c cs ih =>
    intro acc h
    rw [splitlinesAux_cons_plain c cs acc (h c (List.mem_cons_self _ _))]
    rw [ih (c :: acc) (fun x hx => h x (List.mem_cons_of_mem _ hx))]
    have hl : (c :: acc).reverse ++ cs = acc.reverse ++ (c :: cs) := by
      simp
    rw [hl]

theorem splitlines_single (l : List Char)
    (h : ∀ c ∈ l, isLineBoundary c = false) (hne : l ≠ []) :
    splitlines l = [l] := by
  unfold splitlines
  rw [splitlinesAux_no_boundary l [] h]
  simp [List.isEmpty_iff, hne]

theorem pyIsSpace_of_boundary {c : Char} (h : isLineBoundary c = true) :
    pyIsSpace c = true := by
  unfold isLineBoundary at h
  unfold pyIsSpace
  simp only [Bool.or_eq_true, Bool.and_eq_true, decide_eq_true_eq] at h ⊢
  omega

theorem boundary_false_of_not_space {c : Char} (h : pyIsSpace c = false) :
    isLineBoundary c = false := by
  cases hb : isLineBoundary c with
  | false => rfl
  | true =>
    rw [pyIsSpace_of_boundary hb] at h
    cases h

theorem subWSGo_id (l : List Char) (h : ∀ c ∈ l, pyIsSpace c = false) :
    ∀ b, subWSGo b l = l := by
  induction l with
  | nil => intro b; rfl
  | cons c cs ih =>
    intro b
    have hc : pyIsSpace c = false := h c (List.mem_cons_self _ _)
    simp [subWSGo, hc, ih (fun x hx => h x (List.mem_cons_of_mem _ hx))]

theorem dropWhile_eq_self_of_headNot {l : List Char}
    (h : headNotWS l = true) : l.dropWhile pyIsSpace = l := by
  cases l with
  | nil => rfl
  | cons c t =>
    simp only [headNotWS, Bool.not_eq_true'] at h
    simp [List.dropWhile, h]

theorem pyStrip_id {l : List Char} (h1 : headNotWS l = true)
    (h2 : headNotWS l.reverse = true) : pyStrip l = l := by
  unfold pyStrip pyRStrip
  rw [dropWhile_eq_self_of_headNot h1, dropWhile_eq_self_of_headNot h2,
    List.reverse_reverse]

theorem headNotWS_of_all {l : List Char}
    (h : ∀ c ∈ l, pyIsSpace c = false) : headNotWS l = true := by
  cases l with
  | nil => rfl
  | cons c t => simp [headNotWS, h c (List.mem_cons_self _ _)]

theorem pyNormWS_id (l : List Char) (h : ∀ c ∈ l, pyIsSpace c = false) :
    pyNormWS l = l := by
  unfold pyNormWS
  rw [show subWS l = l from subWSGo_id l h false]
  exact pyStrip_id (headNotWS_of_all h)
    (headNotWS_of_all (fun c hc => h c (List.mem_reverse.1 hc)))

theorem matchTitleEn_title_line (v : List Char) (hne : v ≠ [])
    (hnw : ∀ c ∈ v, pyIsSpace c = false) :
    matchTitleEn ('T' :: 'i' :: 't' :: 'l' :: 'e' :: ':' :: ' ' :: v) =
      some v := by
  unfold matchTitleEn labeled
  have heat : eatCI "Title".data
      ('T' :: 'i' :: 't' :: 'l' :: 'e' :: ':' :: ' ' :: v) =
        some (':' :: ' ' :: v) := rfl
  rw [heat]
  show tailMatch grpDotPlus (':' :: ' ' :: v) = some v
  have hcol : eatColon (':' :: ' ' :: v) = some (' ' :: v) := by
    simp [eatColon]
  unfold tailMatch
  rw [hcol]
  show grpDotPlus ((' ' :: v).dropWhile pyIsSpace) = some v
  have hdw : (' ' :: v).dropWhile pyIsSpace = v := by
    have hstep : (' ' :: v).dropWhile pyIsSpace = v.dropWhile pyIsSpace := by
      have hsp : pyIsSpace ' ' = true := rfl
      simp [List.dropWhile, hsp]
    rw [hstep]
    exact dropWhile_eq_self_of_headNot (headNotWS_of_all hnw)
  rw [hdw]
  unfold grpDotPlus
  rw [if_pos ⟨hne, fun hmem => absurd (hnw '\n' hmem) (by decide)⟩]

theorem goScan_cons_some (k : String) (pats : List Matcher)
    (rest : List (String × List Matcher)) (f : List (String × List Char))
    (ln : List Char) (g : List Char) (htry : tryPats pats ln = some g) :
    goScan ((k, pats) :: rest) f ln = dictSet f k (pyStrip g) := by
  simp only [goScan, htry]
  rw [if_pos (hasKey_dictSet_self f k (pyStrip g))]

/-- C9: a title extracted from a labeled Title line is kept in full: the
returned title is exactly the labeled value, with no two-hundred-character
truncation applied, so a labeled title may exceed two hundred characters
(the witness exhibits one of length two hundred one). -/
theorem labeled_title_not_truncated (v : List Char) (hne : v ≠ [])
    (hnw : ∀ c ∈ v, pyIsSpace c = false) :
    parse_movie
        (String.mk ('T' :: 'i' :: 't' :: 'l' :: 'e' :: ':' :: ' ' :: v)) =
      [("title", String.mk v)] := by
  have hnb : ∀ c ∈ ('T' :: 'i' :: 't' :: 'l' :: 'e' :: ':' :: ' ' :: v),
      isLineBoundary c = false := by
    intro c hc
    simp only [List.mem_cons] at hc
    rcases hc with rfl | rfl | rfl | rfl | rfl | rfl | rfl | hv
    · decide
    · decide
    · decide
    · decide
    · decide
    · decide
    · decide
    · exact boundary_false_of_not_space (hnw c hv)
  have hLne : ('T' :: 'i' :: 't' :: 'l' :: 'e' :: ':' :: ' ' :: v) ≠
      ([] : List Char) := by simp
  have hLhead : headNotWS ('T' :: 'i' :: 't' :: 'l' :: 'e' :: ':' :: ' ' :: v) =
      true := rfl
  have hLrev : headNotWS
      ('T' :: 'i' :: 't' :: 'l' :: 'e' :: ':' :: ' ' :: v).reverse = true := by
    obtain ⟨c, t, hct⟩ := List.exists_cons_of_ne_nil
      (show v.reverse ≠ [] by simpa using hne)
    have hrev : ('T' :: 'i' :: 't' :: 'l' :: 'e' :: ':' :: ' ' :: v).reverse =
        c :: (t ++ [' ', ':', 'e', 'l', 't', 'i', 'T']) := by
      simp only [List.reverse_cons, List.append_assoc]
      rw [show v.reverse = c :: t from hct]
      rfl
    rw [hrev]
    have hcv : c ∈ v :=
      List.mem_reverse.1 (by rw [hct]; exact List.mem_cons_self _ _)
    simp [headNotWS, hnw c hcv]
  have hlines : parsedLines
      (String.mk ('T' :: 'i' :: 't' :: 'l' :: 'e' :: ':' :: ' ' :: v)) =
        [('T' :: 'i' :: 't' :: 'l' :: 'e' :: ':' :: ' ' :: v)] := by
    unfold parsedLines
    rw [show (String.mk ('T' :: 'i' :: 't' :: 'l' :: 'e' :: ':' :: ' ' :: v)).data
        = ('T' :: 'i' :: 't' :: 'l' :: 'e' :: ':' :: ' ' :: v) from rfl]
    rw [splitlines_single _ hnb hLne]
    have hstrip : pyStrip ('T' :: 'i' :: 't' :: 'l' :: 'e' :: ':' :: ' ' :: v) =
        ('T' :: 'i' :: 't' :: 'l' :: 'e' :: ':' :: ' ' :: v) :=
      pyStrip_id hLhead hLrev
    simp [hstrip, List.isEmpty_iff, hLne]
  have hvstrip : pyStrip v = v :=
    pyStrip_id (headNotWS_of_all hnw)
      (headNotWS_of_all (fun c hc => hnw c (List.mem_reverse.1 hc)))
  have htry : tryPats [matchTitleEn, matchTitleFa]
      ('T' :: 'i' :: 't' :: 'l' :: 'e' :: ':' :: ' ' :: v) = some v := by
    simp [tryPats, matchTitleEn_title_line v hne hnw]
  have hscan : scanLine [] ('T' :: 'i' :: 't' :: 'l' :: 'e' :: ':' :: ' ' :: v)
      = [("title", v)] := by
    unfold scanLine FIELD_PATTERNS
    rw [goScan_cons_some _ _ _ _ _ _ htry]
    show dictSet [] "title" (pyStrip v) = [("title", v)]
    rw [hvstrip]
    rfl
  have hfold : scanFields [('T' :: 'i' :: 't' :: 'l' :: 'e' :: ':' :: ' ' :: v)]
      = [("title", v)] := by
    unfold scanFields
    rw [List.foldl_cons, List.foldl_nil, hscan]
  unfold parse_movie rawFields
  rw [hlines]
  simp only [hfold, List.headD_cons]
  simp [hasKey, pyNormWS_id v hnw]

/-- C9 witness: a labeled title of two hundred one characters is returned
whole, exceeding the two-hundred-character fallback bound. -/
theorem labeled_title_not_truncated_witness :
    parse_movie (String.mk
        ('T' :: 'i' :: 't' :: 'l' :: 'e' :: ':' :: ' ' ::
          List.replicate 201 'a')) =
      [("title", String.mk (List.replicate 201 'a'))] ∧
    200 < (String.mk (List.replicate 201 'a')).length :=
  ⟨labeled_title_not_truncated (List.replicate 201 'a') (by simp)
      (fun c hc => by rw [List.eq_of_mem_replicate hc]; rfl),
   by simp [String.length]⟩

end Ingest
